import Mathlib

/-!
# gurl: URL shortener over an ordered key/value bucket

A shallow embedding of `gurl.go` (package `main`) and of the parts of its
collaborators that the handlers rely on:

* Go strings and byte slices are lists of byte values (`Bytes`);
* the bolt bucket `links` is an association list kept in ascending key order,
  with `Get`, `Put`, `Delete` and a cursor (`First`, `Seek`, and `Next` as the
  step to the rest of the list);
* `xxhash.Sum64String` and `strconv.FormatUint` are transcribed from their Go
  sources, unsigned 64-bit arithmetic being natural numbers modulo `2 ^ 64`;
* an HTTP handler becomes a function from the bucket and the request fields it
  reads to the bucket after the transaction, the returned `*apiError` and the
  records handed to the CSV writer.
-/

namespace Gurl

/-! ## Byte strings -/

/-- A Go `string` or `[]byte`: the sequence of its byte values. -/
abbrev Bytes := List Nat

/-- The bytes of an ASCII literal. -/
def ascii (s : String) : Bytes := s.toList.map Char.toNat

/-- Go `bytes.Compare`: -1, 0 or +1 by bytewise lexicographic order. -/
def bytesCompare : Bytes → Bytes → Int
  | [], [] => 0
  | [], _ :: _ => -1
  | _ :: _, [] => 1
  | a :: as, b :: bs =>
    if a < b then -1 else if b < a then 1 else bytesCompare as bs

/-- Go builtin `copy(dst, src)`: the contents of `dst` afterwards. The first
`min (len dst) (len src)` bytes come from `src`, the rest of `dst` is kept. -/
def goCopy (dst src : Bytes) : Bytes := src.take dst.length ++ dst.drop src.length

/-- Go slice expression `s[lo:hi]`; `none` stands for the run-time panic on
bounds that are out of range. -/
def goSlice (s : Bytes) (lo hi : Nat) : Option Bytes :=
  if lo ≤ hi ∧ hi ≤ s.length then some ((s.take hi).drop lo) else none

/-- Go `strings.Split(s, sep)` for a one-byte separator. The result is never
empty: splitting the empty string gives one empty piece. -/
def stringsSplit (sep : Nat) : Bytes → List Bytes
  | [] => [[]]
  | c :: cs =>
    if c = sep then [] :: stringsSplit sep cs
    else
      match stringsSplit sep cs with
      | [] => [[c]]
      | piece :: pieces => (c :: piece) :: pieces

/-- The byte of the line feed, the separator `"\n"`. -/
def newline : Nat := 10

/-! ## strconv and fmt -/

/-- The digit table `"0123456789abcdefghijklmnopqrstuvwxyz"` of `strconv`. -/
def digitByte (d : Nat) : Nat := if d < 10 then 48 + d else 87 + d

/-- The loop of `strconv.formatBits` for a base that is not a power of two:
digits are produced from the least significant one, into a buffer of 65
bytes (the recursion depth). -/
def formatBits : Nat → Nat → Nat → Bytes → Bytes
  | 0, u, _, acc => digitByte u :: acc
  | room + 1, u, base, acc =>
    if base ≤ u then formatBits room (u / base) base (digitByte (u % base) :: acc)
    else digitByte u :: acc

/-- Go `strconv.FormatUint(u, base)`. -/
def formatUint (u base : Nat) : Bytes := formatBits 64 u base []

/-- Go `fmt.Sprintf("%v", n)` for a non-negative `int`: its decimal digits. -/
def fmtInt (n : Nat) : Bytes := formatUint n 10

/-! ## xxhash (cespare/xxhash, `Sum64`) -/

/-- Truncation to an unsigned 64-bit word. -/
def u64 (n : Nat) : Nat := n % 18446744073709551616

def prime1 : Nat := 11400714785074694791
def prime2 : Nat := 14029467366897019727
def prime3 : Nat := 1609587929392839161
def prime4 : Nat := 9650029242287828579
def prime5 : Nat := 2870177450012600261

/-- Go `bits.RotateLeft64(x, r)` for `0 < r < 64` and `x < 2 ^ 64`. -/
def rol (r x : Nat) : Nat := u64 (x * 2 ^ r) + x / 2 ^ (64 - r)

/-- Little-endian read of the bytes of a word. -/
def leWord : Bytes → Nat
  | [] => 0
  | b :: bs => b + 256 * leWord bs

/-- The xxhash `round` function. -/
def round (acc input : Nat) : Nat :=
  u64 (rol 31 (u64 (acc + u64 (input * prime2))) * prime1)

/-- The xxhash `mergeRound` function. -/
def mergeRound (acc val : Nat) : Nat :=
  u64 (u64 (Nat.xor acc (round 0 val) * prime1) + prime4)

/-- The loop over whole 32-byte stripes: `n` stripes are left in `b`. -/
def stripes : Nat → Bytes → Nat × Nat × Nat × Nat → Nat × Nat × Nat × Nat
  | 0, _, v => v
  | n + 1, b, (v1, v2, v3, v4) =>
    stripes n (b.drop 32)
      (round v1 (leWord (b.take 8)),
       round v2 (leWord ((b.drop 8).take 8)),
       round v3 (leWord ((b.drop 16).take 8)),
       round v4 (leWord ((b.drop 24).take 8)))

/-- The loop over the remaining whole 8-byte words: `n` words are left. -/
def words8 : Nat → Bytes → Nat → Nat
  | 0, _, h => h
  | n + 1, b, h =>
    words8 n (b.drop 8)
      (u64 (u64 (rol 27 (Nat.xor h (round 0 (leWord (b.take 8)))) * prime1) + prime4))

/-- The loop over the last, single bytes. -/
def tailBytes : Bytes → Nat → Nat
  | [], h => h
  | c :: cs, h => tailBytes cs (u64 (rol 11 (Nat.xor h (u64 (c * prime5))) * prime1))

/-- The final avalanche. -/
def avalanche (h : Nat) : Nat :=
  let h1 := u64 (Nat.xor h (h / 2 ^ 33) * prime2)
  let h2 := u64 (Nat.xor h1 (h1 / 2 ^ 29) * prime3)
  Nat.xor h2 (h2 / 2 ^ 32)

/-- The function `xxhash.Sum64` (and `Sum64String`): XXH64 with seed 0. -/
def Sum64 (b : Bytes) : Nat :=
  let n := b.length
  let h0 :=
    if 32 ≤ n then
      match stripes (n / 32) b (u64 (prime1 + prime2), prime2, 0, u64 (18446744073709551616 - prime1)) with
      | (v1, v2, v3, v4) =>
        mergeRound (mergeRound (mergeRound (mergeRound
          (u64 (rol 1 v1 + rol 7 v2 + rol 12 v3 + rol 18 v4)) v1) v2) v3) v4
    else prime5
  let h1 := u64 (h0 + n)
  let rest := b.drop (n / 32 * 32)
  let h2 := words8 (rest.length / 8) rest h1
  let rest4 := rest.drop (rest.length / 8 * 8)
  let h3 :=
    if 4 ≤ rest4.length then
      u64 (u64 (rol 23 (Nat.xor h2 (u64 (leWord (rest4.take 4) * prime1))) * prime2) + prime3)
    else h2
  let rest1 := if 4 ≤ rest4.length then rest4.drop 4 else rest4
  avalanche (tailBytes rest1 h3)

/-- The function `makeBaseHash`: the base-36 text of the 64-bit hash of the link. -/
def makeBaseHash (link : Bytes) : Bytes := formatUint (Sum64 link) 36

/-! ## time -/

/-- The fields of a `time.Time` that the layout `"0601"` reads. -/
structure Time where
  Year : Nat
  Month : Nat

/-- Two decimal digits, zero padded. -/
def twoDigits (n : Nat) : Bytes := [48 + n / 10 % 10, 48 + n % 10]

/-- Go `t.Format("0601")`: two-digit year, then two-digit month. -/
def timeFormat0601 (t : Time) : Bytes := twoDigits (t.Year % 100) ++ twoDigits t.Month

/-! ## The bolt bucket

The bucket is the list of its key/value pairs in ascending key order. A cursor
is the list of the pairs from its position on; a transaction that has only
read so far walks the pages it was opened on, so a cursor keeps yielding the
pairs that were there when it was positioned, whatever is deleted behind it
(`cleanupLoop_cursor_independent` shows that a cursor re-reading the bucket
would make no difference to the one loop that deletes while it scans).
The size limits of `Put` (32 KiB keys, 2 GiB values) are out of reach of a
form value, which `net/http` caps at 10 MiB, and are left out. Commit failures
of the underlying file are not modelled: `Update` and `View` return `nil` when
the callback does. -/

/-- The pairs of the bucket `links`, in ascending key order. -/
abbrev Bucket := List (Bytes × Bytes)

/-- The invariant bolt keeps: keys strictly ascending and never empty. -/
def Bucket.WF (b : Bucket) : Prop :=
  b.Pairwise (fun x y => bytesCompare x.1 y.1 < 0) ∧ ∀ x ∈ b, x.1 ≠ []

instance (b : Bucket) : Decidable b.WF := by
  unfold Bucket.WF
  exact inferInstance

/-- Errors of bolt that a handler can meet. -/
inductive BoltError where
  | ErrKeyRequired
  deriving DecidableEq, Repr

/-- Bolt `Bucket.Get`: the value of the key, `none` (a nil slice) when absent. -/
def Bucket.Get : Bucket → Bytes → Option Bytes
  | [], _ => none
  | (k, v) :: rest, key => if k = key then some v else Bucket.Get rest key

/-- Insertion at the place the order gives, replacing the value of a key that
is already there. -/
def Bucket.insert : Bucket → Bytes → Bytes → Bucket
  | [], key, value => [(key, value)]
  | (k, v) :: rest, key, value =>
    if bytesCompare key k < 0 then (key, value) :: (k, v) :: rest
    else if bytesCompare key k = 0 then (key, value) :: rest
    else (k, v) :: Bucket.insert rest key value

/-- Bolt `Bucket.Put`: an upsert; an empty key is refused. -/
def Bucket.Put (b : Bucket) (key value : Bytes) : Except BoltError Bucket :=
  if key.length = 0 then .error .ErrKeyRequired else .ok (b.insert key value)

/-- A call `b.Put(key, value)` whose error is dropped: the bucket afterwards. -/
def Bucket.putIgnoringError (b : Bucket) (key value : Bytes) : Bucket :=
  match b.Put key value with
  | .ok b1 => b1
  | .error _ => b

/-- Bolt `Bucket.Delete`: removes the key; nothing happens when it is absent. -/
def Bucket.Delete (b : Bucket) (key : Bytes) : Bucket :=
  b.filter (fun x => decide (x.1 ≠ key))

/-- Bolt `Cursor.First`: the first key, a nil slice on an empty bucket. -/
def Bucket.First : Bucket → Bytes
  | [] => []
  | (k, _) :: _ => k

/-- Bolt `Cursor.Seek`: the cursor at the first key that is not below `seek`. -/
def Bucket.Seek (b : Bucket) (seek : Bytes) : List (Bytes × Bytes) :=
  b.dropWhile (fun x => decide (bytesCompare x.1 seek < 0))

/-! ## gurl.go -/

/-- The function `findRedirect`. -/
def findRedirect (db : Bucket) (hash : Bytes) : Bytes :=
  if hash.length = 0 then []
  else
    match db.Get hash with
    | some v => v
    | none => []

/-- The test of `sendReport` on a record: `len(i) > 0 && len(i[0]) > 0`. -/
def rowEmitted : List Bytes → Bool
  | [] => false
  | c :: _ => decide (c.length > 0)

/-- The function `sendReport`: the records handed to the CSV writer. -/
def sendReport (data : List (List Bytes)) : List (List Bytes) :=
  data.filter rowEmitted

/-- The type `apiError`. -/
structure ApiError where
  Error : Option String
  Code : Nat
  Message : String
  deriving DecidableEq, Repr

/-- What a handler of the management API does: the bucket after its
transaction, the `*apiError` it returns (`none` for nil) and the records it
sends. -/
structure ApiResult where
  db : Bucket
  err : Option ApiError
  rows : List (List Bytes)
  deriving DecidableEq, Repr

/-- The loop of `apiAddLink` inside the update transaction. `byteHash` is the
one 12-byte buffer all iterations write to; `Put` stores a copy of the key, so
a later write to the buffer does not touch the pairs already in the bucket. -/
def addLoop : List Bytes → Bytes → Bucket → List (List Bytes) → Bucket × List (List Bytes)
  | [], _, b, report => (b, report)
  | link :: links, byteHash, b, report =>
    if link.length = 0 then addLoop links byteHash b report
    else
      let byteHash1 := byteHash.take 4 ++ goCopy (byteHash.drop 4) (makeBaseHash link)
      addLoop links byteHash1 (b.putIgnoringError byteHash1 link)
        (report ++ [[link, byteHash1]])

/-- The handler `apiAddLink`; `link` is the form value, `now` is `time.Now()`. -/
def apiAddLink (now : Time) (db : Bucket) (link : Bytes) : ApiResult :=
  let links := stringsSplit newline link
  let linksLen := links.length
  if linksLen = 0 then ⟨db, some ⟨none, 500, "Empty \x27link\x27 argument"⟩, []⟩
  else
    let report : List (List Bytes) := List.replicate linksLen []
    let byteHash := goCopy (List.replicate 12 0) (timeFormat0601 now)
    match addLoop links byteHash db report with
    | (db1, report1) => ⟨db1, none, sendReport report1⟩

/-- The loop of `apiLinkList`; the first argument is the cursor. -/
def listLoop (endID : Bytes) (isNoEnd : Bool) :
    List (Bytes × Bytes) → Nat → List (List Bytes) → List (List Bytes)
  | [], _, report => report
  | (k, v) :: rest, reportLimit, report =>
    if reportLimit > 0 ∧ (isNoEnd = true ∨ bytesCompare k endID ≤ 0) then
      listLoop endID isNoEnd rest (reportLimit - 1) (report ++ [[k, v]])
    else report

/-- The handler `apiLinkList`; `start` and `endID` are the query values. -/
def apiLinkList (db : Bucket) (start endID : Bytes) : ApiResult :=
  let reportLimit := 30
  let report : List (List Bytes) := List.replicate reportLimit []
  let startID := if start.length = 0 then db.First else start
  let isNoEnd := decide (endID.length = 0)
  ⟨db, none, sendReport (listLoop endID isNoEnd (db.Seek startID) reportLimit report)⟩

/-- The loop of `apiRemoveHash` inside the update transaction. -/
def removeLoop : List Bytes → Bucket → List (List Bytes) → Bucket × List (List Bytes)
  | [], b, report => (b, report)
  | hash :: hashes, b, report =>
    if hash.length = 0 then removeLoop hashes b report
    else removeLoop hashes (b.Delete hash) (report ++ [[hash]])

/-- The handler `apiRemoveHash`; `hash` is the form value. -/
def apiRemoveHash (db : Bucket) (hash : Bytes) : ApiResult :=
  let hashes := stringsSplit newline hash
  let hashesLen := hashes.length
  if hashesLen = 0 then ⟨db, some ⟨none, 500, "Empty \x27hash\x27 argument"⟩, []⟩
  else
    let report : List (List Bytes) := List.replicate hashesLen []
    match removeLoop hashes db report with
    | (db1, report1) => ⟨db1, none, sendReport report1⟩

/-- The loop of `apiCleanupHash`; the first argument is the cursor. -/
def cleanupLoop (endID : Bytes) : List (Bytes × Bytes) → Bucket → Nat → Bucket × Nat
  | [], b, totalRemoved => (b, totalRemoved)
  | (k, _) :: rest, b, totalRemoved =>
    if bytesCompare k endID ≤ 0 then cleanupLoop endID rest (b.Delete k) (totalRemoved + 1)
    else (b, totalRemoved)

/-- The handler `apiCleanupHash`; `start` and `endID` are the form values. -/
def apiCleanupHash (db : Bucket) (start endID : Bytes) : ApiResult :=
  if start.length = 0 ∧ endID.length = 0 then
    ⟨db, some ⟨none, 500, "Both empty: \x27start\x27 \x27end\x27"⟩, []⟩
  else
    let startID := if start.length = 0 then db.First else start
    match cleanupLoop endID (db.Seek startID) db 0 with
    | (db1, totalRemoved) => ⟨db1, none, sendReport [[ascii "total", fmtInt totalRemoved]]⟩

/-- What `redirectServerHandler` writes: the status, and the target given to
`http.Redirect` when there is one. -/
structure Response where
  Status : Nat
  Location : Option Bytes
  deriving DecidableEq, Repr

/-- The handler `redirectServerHandler`: its response together with the
arguments of the calls of `findRedirect` it makes, in order; `none` stands
for a run-time panic. -/
def redirectServerHandler (db : Bucket) (method : String) (path : Bytes) :
    Option (Response × List Bytes) :=
  if method = "GET" ∧ path.length ≥ 13 then
    match goSlice path 1 13 with
    | none => none
    | some key =>
      let redirectURL := findRedirect db key
      if redirectURL.length > 0 then some (⟨302, some redirectURL⟩, [key])
      else some (⟨404, none⟩, [key])
  else some (⟨404, none⟩, [])

/-! ## Vocabulary of the statements

Ranges of keys, the records each handler appends, and the pure counterparts of
the loops that the theorems below compare the handlers with. -/

/-- Membership of a key in the closed range from `lo` to `hi`. -/
def inRange (lo hi k : Bytes) : Bool :=
  decide (bytesCompare lo k ≤ 0) && decide (bytesCompare k hi ≤ 0)

/-- The predicate of `Seek`: the key is still below the sought one. -/
def belowKey (seek : Bytes) (x : Bytes × Bytes) : Bool := decide (bytesCompare x.1 seek < 0)

/-- The loop condition on the upper bound. -/
def upToKey (hi : Bytes) (x : Bytes × Bytes) : Bool := decide (bytesCompare x.1 hi ≤ 0)

/-- The record `apiLinkList` appends for a pair. -/
def listRow (x : Bytes × Bytes) : List Bytes := [x.1, x.2]

/-- The bounds of a listing: at or after `lo`, and at or before `hi` unless
`hi` is empty. -/
def inListRange (lo hi k : Bytes) : Bool :=
  decide (bytesCompare lo k ≤ 0) && (decide (hi.length = 0) || decide (bytesCompare k hi ≤ 0))

/-- The loop condition of `apiLinkList` on the upper bound. -/
def listCond (endID : Bytes) (isNoEnd : Bool) (x : Bytes × Bytes) : Bool :=
  isNoEnd || decide (bytesCompare x.1 endID ≤ 0)

/-- The contents of the key buffer after the `copy` of one iteration. -/
def nextKey (byteHash link : Bytes) : Bytes :=
  byteHash.take 4 ++ goCopy (byteHash.drop 4) (makeBaseHash link)

/-- The pairs `(url, key)` the loop of `apiAddLink` goes through, in order. -/
def addPairs : List Bytes → Bytes → List (Bytes × Bytes)
  | [], _ => []
  | link :: links, byteHash =>
    if link.length = 0 then addPairs links byteHash
    else (link, nextKey byteHash link) :: addPairs links (nextKey byteHash link)

/-- The record `apiAddLink` appends for a pair `(url, key)`. -/
def addRow (p : Bytes × Bytes) : List Bytes := [p.1, p.2]

/-- The key buffer before the loop: the time prefix, then eight zero bytes. -/
def freshKey (now : Time) : Bytes := goCopy (List.replicate 12 0) (timeFormat0601 now)

/-- The lines of a form value that the loops act on: the non-empty ones. -/
def nonEmptyLines (s : Bytes) : List Bytes :=
  (stringsSplit newline s).filter (fun l => decide (l ≠ []))

/-- The record `apiRemoveHash` appends for a key. -/
def removeRow (hash : Bytes) : List Bytes := [hash]

/-- A cursor that re-reads the bucket on every step: `Next` from the key `k`
is the first pair of the bucket, as it is now, whose key is above `k`. -/
def Bucket.nextAfter (b : Bucket) (k : Bytes) : Option (Bytes × Bytes) :=
  (b.dropWhile (fun x => decide (bytesCompare x.1 k ≤ 0))).head?

/-- The loop of `apiCleanupHash` over such a re-reading cursor; the first
argument bounds the number of iterations. -/
def cleanupLoopLive (endID : Bytes) : Nat → Option (Bytes × Bytes) → Bucket → Nat → Bucket × Nat
  | 0, _, b, totalRemoved => (b, totalRemoved)
  | _ + 1, none, b, totalRemoved => (b, totalRemoved)
  | steps + 1, some (k, _), b, totalRemoved =>
    if bytesCompare k endID ≤ 0 then
      cleanupLoopLive endID steps ((b.Delete k).nextAfter k) (b.Delete k) (totalRemoved + 1)
    else (b, totalRemoved)

/-! ## The order on keys -/

theorem bytesCompare_self (a : Bytes) : bytesCompare a a = 0 := by
  induction a with
  | nil => rfl
  | cons x xs ih => simp [bytesCompare, ih]

theorem bytesCompare_eq_zero {a b : Bytes} (h : bytesCompare a b = 0) : a = b := by
  induction a generalizing b with
  | nil => cases b with
    | nil => rfl
    | cons y ys => simp [bytesCompare] at h
  | cons x xs ih => cases b with
    | nil => simp [bytesCompare] at h
    | cons y ys =>
      simp only [bytesCompare] at h
      split_ifs at h with h1 h2
      · omega
      · have hxy : x = y := by omega
        rw [hxy, ih h]

theorem bytesCompare_swap (a b : Bytes) : bytesCompare b a = - bytesCompare a b := by
  induction a generalizing b with
  | nil => cases b <;> simp [bytesCompare]
  | cons x xs ih => cases b with
    | nil => simp [bytesCompare]
    | cons y ys =>
      simp only [bytesCompare]
      split_ifs <;> first | omega | simp | exact ih ys

theorem bytesCompare_lt_trans {a b c : Bytes} (hab : bytesCompare a b < 0)
    (hbc : bytesCompare b c < 0) : bytesCompare a c < 0 := by
  induction a generalizing b c with
  | nil => cases c with
    | nil => cases b <;> simp [bytesCompare] at hab hbc
    | cons z zs => simp [bytesCompare]
  | cons x xs ih => cases b with
    | nil => simp [bytesCompare] at hab
    | cons y ys => cases c with
      | nil => simp [bytesCompare] at hbc
      | cons z zs =>
        simp only [bytesCompare] at hab hbc ⊢
        split_ifs at hab hbc ⊢ <;> first | omega | exact ih hab hbc

theorem bytesCompare_lt_of_lt_of_le {a b c : Bytes} (hab : bytesCompare a b < 0)
    (hbc : bytesCompare b c ≤ 0) : bytesCompare a c < 0 := by
  rcases lt_or_eq_of_le hbc with h | h
  · exact bytesCompare_lt_trans hab h
  · rw [← bytesCompare_eq_zero h]; exact hab

theorem bytesCompare_lt_of_le_of_lt {a b c : Bytes} (hab : bytesCompare a b ≤ 0)
    (hbc : bytesCompare b c < 0) : bytesCompare a c < 0 := by
  rcases lt_or_eq_of_le hab with h | h
  · exact bytesCompare_lt_trans h hbc
  · rw [bytesCompare_eq_zero h]; exact hbc

theorem bytesCompare_nil_right_pos {k : Bytes} (h : k ≠ []) : 0 < bytesCompare k [] := by
  cases k with
  | nil => exact absurd rfl h
  | cons x xs => simp [bytesCompare]

theorem bytesCompare_nil_left (k : Bytes) : bytesCompare [] k ≤ 0 := by
  cases k <;> simp [bytesCompare]

/-! ## Sorted buckets and cursors -/

theorem takeWhile_eq_filter_of_sorted (p : Bytes × Bytes → Bool) (l : Bucket)
    (hs : l.Pairwise (fun x y => bytesCompare x.1 y.1 < 0))
    (hp : ∀ x y, bytesCompare x.1 y.1 < 0 → p y = true → p x = true) :
    l.takeWhile p = l.filter p := by
  induction l with
  | nil => rfl
  | cons x xs ih =>
    rw [List.pairwise_cons] at hs
    by_cases hx : p x = true
    · simp [List.takeWhile_cons, List.filter_cons, hx, ih hs.2]
    · have hnone : ∀ y ∈ xs, ¬ p y = true := fun y hy hpy => hx (hp x y (hs.1 y hy) hpy)
      simp only [List.takeWhile_cons, List.filter_cons, hx]
      simp only [Bool.false_eq_true, if_false]
      exact (List.filter_eq_nil_iff.mpr hnone).symm

theorem dropWhile_eq_filter_of_sorted (p : Bytes × Bytes → Bool) (l : Bucket)
    (hs : l.Pairwise (fun x y => bytesCompare x.1 y.1 < 0))
    (hp : ∀ x y, bytesCompare x.1 y.1 < 0 → p y = true → p x = true) :
    l.dropWhile p = l.filter (fun x => !p x) := by
  induction l with
  | nil => rfl
  | cons x xs ih =>
    rw [List.pairwise_cons] at hs
    by_cases hx : p x = true
    · simp [List.dropWhile_cons, List.filter_cons, hx, ih hs.2]
    · have hall : ∀ y ∈ xs, (!p y) = true := fun y hy => by
        cases hpy : p y with
        | false => rfl
        | true => exact absurd (hp x y (hs.1 y hy) hpy) hx
      simp only [List.dropWhile_cons, List.filter_cons, hx]
      simp only [Bool.false_eq_true, if_false, Bool.not_false, if_true]
      rw [List.filter_eq_self.mpr hall]

theorem belowKey_downward (seek : Bytes) (x y : Bytes × Bytes)
    (hxy : bytesCompare x.1 y.1 < 0) (hy : belowKey seek y = true) : belowKey seek x = true := by
  simp only [belowKey, decide_eq_true_eq] at hy ⊢
  exact bytesCompare_lt_trans hxy hy

theorem upToKey_downward (hi : Bytes) (x y : Bytes × Bytes)
    (hxy : bytesCompare x.1 y.1 < 0) (hy : upToKey hi y = true) : upToKey hi x = true := by
  simp only [upToKey, decide_eq_true_eq] at hy ⊢
  exact le_of_lt (bytesCompare_lt_of_lt_of_le hxy hy)

theorem not_belowKey (seek : Bytes) (x : Bytes × Bytes) :
    (!belowKey seek x) = decide (bytesCompare seek x.1 ≤ 0) := by
  have h := bytesCompare_swap seek x.1
  simp only [belowKey]
  by_cases hlt : bytesCompare x.1 seek < 0
  · have : ¬ bytesCompare seek x.1 ≤ 0 := by omega
    simp [hlt, this]
  · have : bytesCompare seek x.1 ≤ 0 := by omega
    simp [hlt, this]

/-- On a sorted bucket the pairs a bounded scan from `Seek lo` meets are the
pairs whose key lies in the range. -/
theorem scan_eq_filter (db : Bucket) (lo hi : Bytes)
    (hs : db.Pairwise (fun x y => bytesCompare x.1 y.1 < 0)) :
    (db.Seek lo).takeWhile (upToKey hi) = db.filter (fun x => inRange lo hi x.1) := by
  have h1 : db.Seek lo = db.filter (fun x => !belowKey lo x) :=
    dropWhile_eq_filter_of_sorted (belowKey lo) db hs (belowKey_downward lo)
  rw [h1, takeWhile_eq_filter_of_sorted (upToKey hi) _ (hs.sublist (List.filter_sublist _))
    (upToKey_downward hi), List.filter_filter]
  congr 1
  funext x
  rw [not_belowKey]
  simp [inRange, upToKey, Bool.and_comm]

theorem seek_first (db : Bucket) (hs : db.Pairwise (fun x y => bytesCompare x.1 y.1 < 0)) :
    db.Seek db.First = db := by
  cases db with
  | nil => rfl
  | cons x xs =>
    obtain ⟨k, v⟩ := x
    simp [Bucket.Seek, Bucket.First, List.dropWhile_cons, bytesCompare_self]

theorem Get_filter (db : Bucket) (q : Bytes → Bool) (k : Bytes) :
    Bucket.Get (db.filter (fun x => q x.1)) k = if q k = true then db.Get k else none := by
  induction db with
  | nil => simp [Bucket.Get]
  | cons x xs ih =>
    obtain ⟨k1, v1⟩ := x
    by_cases hq : q k1 = true
    · simp only [List.filter_cons, hq, if_true, Bucket.Get]
      by_cases hk : k1 = k
      · subst hk; simp [hq]
      · simp [hk, ih]
    · simp only [List.filter_cons, hq, Bucket.Get]
      by_cases hk : k1 = k
      · subst hk; simp [hq, ih]
      · simp [hk, ih]

/-- The cleanup loop deletes the keys of the pairs its cursor yields up to the
bound, and counts them. -/
theorem cleanupLoop_eq (endID : Bytes) (cur : List (Bytes × Bytes)) (b : Bucket) (n : Nat) :
    cleanupLoop endID cur b n =
      (b.filter (fun x => decide (x.1 ∉ (cur.takeWhile (upToKey endID)).map Prod.fst)),
       n + (cur.takeWhile (upToKey endID)).length) := by
  induction cur generalizing b n with
  | nil => simp [cleanupLoop]
  | cons x xs ih =>
    obtain ⟨k, v⟩ := x
    by_cases hk : bytesCompare k endID ≤ 0
    · simp only [cleanupLoop, hk, if_true, ih, Bucket.Delete, List.filter_filter,
        List.takeWhile_cons, upToKey, decide_True, List.map_cons, List.length_cons]
      refine Prod.ext ?_ (by simp; omega)
      simp only
      congr 1
      funext y
      by_cases hy : y.1 = k
      · simp [hy]
      · have hy2 : ¬ k = y.1 := fun h => hy h.symm
        simp [hy, hy2]
    · simp [cleanupLoop, hk, List.takeWhile_cons, upToKey]

theorem ascii_total : ascii "total" = [116, 111, 116, 97, 108] := by decide

theorem sendReport_total (n : Nat) :
    sendReport [[ascii "total", fmtInt n]] = [[ascii "total", fmtInt n]] := by
  simp [sendReport, rowEmitted, ascii_total]

theorem filter_not_mem_keys (db : Bucket) (q : Bytes → Bool) :
    db.filter (fun x => decide (x.1 ∉ (db.filter (fun y => q y.1)).map Prod.fst)) =
      db.filter (fun x => !q x.1) := by
  apply List.filter_congr
  intro x hx
  by_cases hq : q x.1 = true
  · have hmem : x.1 ∈ (db.filter (fun y => q y.1)).map Prod.fst :=
      List.mem_map.mpr ⟨x, List.mem_filter.mpr ⟨hx, hq⟩, rfl⟩
    simp [hq, hmem]
  · have hmem : x.1 ∉ (db.filter (fun y => q y.1)).map Prod.fst := by
      intro h
      obtain ⟨y, hy, hyx⟩ := List.mem_map.mp h
      rw [← hyx] at hq
      exact hq (List.mem_filter.mp hy).2
    simp [hq, hmem]

theorem length_filter_add_length_filter_not (db : Bucket) (q : Bytes × Bytes → Bool) :
    (db.filter q).length + (db.filter (fun x => !q x)).length = db.length := by
  induction db with
  | nil => rfl
  | cons x xs ih =>
    by_cases hq : q x = true
    · simp [List.filter_cons, hq]; omega
    · simp [List.filter_cons, hq]; omega

/-- What `apiCleanupHash` does when it gets past its guard, on a sorted bucket. -/
theorem apiCleanupHash_run (db : Bucket) (start endID : Bytes)
    (hs : db.Pairwise (fun x y => bytesCompare x.1 y.1 < 0))
    (hguard : ¬ (start.length = 0 ∧ endID.length = 0)) :
    apiCleanupHash db start endID =
      ⟨db.filter (fun x => !inRange (if start = [] then db.First else start) endID x.1), none,
       [[ascii "total", fmtInt (db.filter (fun x =>
          inRange (if start = [] then db.First else start) endID x.1)).length]]⟩ := by
  have hguard2 : ¬ (start = [] ∧ endID = []) := by
    simpa only [List.length_eq_zero] using hguard
  simp only [apiCleanupHash, List.length_eq_zero, hguard2, if_false, cleanupLoop_eq,
    sendReport_total, scan_eq_filter db _ endID hs, Nat.zero_add]
  rw [filter_not_mem_keys db (fun k => inRange (if start = [] then db.First else start) endID k)]

/-- C1: on a bucket in key order, `apiCleanupHash` with a non-empty `end`
returns no error, leaves exactly the pairs whose key is outside the closed
range from `start` (the first key when `start` is empty) to `end`, each with
its value, so that a lookup gives nothing inside the range and the old value
outside it, and reports as `total` the number of pairs that are gone. -/
theorem apiCleanupHash_removes_range (db : Bucket) (start endID : Bytes)
    (hwf : db.WF) (hend : endID ≠ []) :
    (apiCleanupHash db start endID).err = none ∧
    (apiCleanupHash db start endID).db =
      db.filter (fun x => !inRange (if start = [] then db.First else start) endID x.1) ∧
    (∀ k, (apiCleanupHash db start endID).db.Get k =
      if inRange (if start = [] then db.First else start) endID k = true then none
      else db.Get k) ∧
    (apiCleanupHash db start endID).rows =
      [[ascii "total", fmtInt (db.filter (fun x =>
        inRange (if start = [] then db.First else start) endID x.1)).length]] ∧
    (db.filter (fun x => inRange (if start = [] then db.First else start) endID x.1)).length
      + (apiCleanupHash db start endID).db.length = db.length := by
  have hguard : ¬ (start.length = 0 ∧ endID.length = 0) := by
    intro h
    exact hend (List.length_eq_zero.mp h.2)
  rw [apiCleanupHash_run db start endID hwf.1 hguard]
  refine ⟨rfl, rfl, ?_, rfl, ?_⟩
  · intro k
    have h := Get_filter db (fun k => !inRange (if start = [] then db.First else start) endID k) k
    simp only at h ⊢
    rw [h]
    cases inRange (if start = [] then db.First else start) endID k <;> simp
  · exact length_filter_add_length_filter_not db _

theorem apiCleanupHash_removes_range_witness :
    Bucket.WF [([50], [1]), ([51], [2]), ([52], [3])] ∧
    (apiCleanupHash [([50], [1]), ([51], [2]), ([52], [3])] [] [51]).db = [([52], [3])] ∧
    (apiCleanupHash [([50], [1]), ([51], [2]), ([52], [3])] [] [51]).rows
      = [[ascii "total", [50]]] := by
  have h := apiCleanupHash_removes_range [([50], [1]), ([51], [2]), ([52], [3])] [] [51]
    (by decide) (by decide)
  refine ⟨by decide, ?_, ?_⟩
  · rw [h.2.1]; decide
  · rw [h.2.2.2.1]; decide

theorem dropWhile_head_false {α : Type} (p : α → Bool) (l : List α) (x : α) (rest : List α)
    (h : l.dropWhile p = x :: rest) : p x = false := by
  induction l with
  | nil => simp at h
  | cons a as ih =>
    rw [List.dropWhile_cons] at h
    split_ifs at h with hpa
    · exact ih h
    · have hax : a = x := (List.cons.inj h).1
      rw [← hax]
      simpa using hpa

/-- With an empty upper bound the cleanup loop stops at once: the key the
cursor stands on is not below a non-empty `start`, hence not empty. -/
theorem cleanupLoop_empty_end (db : Bucket) (start : Bytes) (hstart : start ≠ []) :
    cleanupLoop [] (db.Seek start) db 0 = (db, 0) := by
  cases hcur : db.Seek start with
  | nil => rfl
  | cons x rest =>
    obtain ⟨k, v⟩ := x
    have hnb : decide (bytesCompare k start < 0) = false :=
      dropWhile_head_false (fun x : Bytes × Bytes => decide (bytesCompare x.1 start < 0))
        db (k, v) rest (by simpa only [Bucket.Seek] using hcur)
    have hk : k ≠ [] := by
      intro hk0
      subst hk0
      cases start with
      | nil => exact hstart rfl
      | cons s ss => simp [bytesCompare] at hnb
    have hpos := bytesCompare_nil_right_pos hk
    have hnot : ¬ bytesCompare k [] ≤ 0 := by omega
    simp [cleanupLoop, hnot]

/-- C6, as the code has it: with an empty `end` the bucket is never changed;
the client error is returned when `start` is empty too, and with a non-empty
`start` the handler returns no error and reports a total of 0. -/
theorem apiCleanupHash_empty_end (db : Bucket) (start : Bytes) :
    apiCleanupHash db start [] =
      if start = [] then
        ⟨db, some ⟨none, 500, "Both empty: \x27start\x27 \x27end\x27"⟩, []⟩
      else ⟨db, none, [[ascii "total", fmtInt 0]]⟩ := by
  by_cases hstart : start = []
  · subst hstart
    simp [apiCleanupHash]
  · have hlen : ¬ start.length = 0 := fun h => hstart (List.length_eq_zero.mp h)
    simp only [apiCleanupHash, hlen, false_and, if_false, hstart,
      cleanupLoop_empty_end db start hstart, sendReport_total]

/-- C6 as stated fails: a request with a non-empty `start` and an empty `end`
is answered without an error. -/
theorem apiCleanupHash_empty_end_not_rejected :
    (apiCleanupHash [([50, 52, 48, 49], [104])] [50] []).err = none ∧
    (apiCleanupHash [([50, 52, 48, 49], [104])] [50] []).rows = [[ascii "total", [48]]] := by
  decide

/-! ## apiLinkList -/

theorem listLoop_eq (endID : Bytes) (isNoEnd : Bool) (cur : List (Bytes × Bytes))
    (limit : Nat) (report : List (List Bytes)) :
    listLoop endID isNoEnd cur limit report =
      report ++ ((cur.takeWhile (listCond endID isNoEnd)).take limit).map listRow := by
  induction cur generalizing limit report with
  | nil => simp [listLoop]
  | cons x xs ih =>
    obtain ⟨k, v⟩ := x
    cases limit with
    | zero => simp [listLoop]
    | succ m =>
      by_cases hc : listCond endID isNoEnd (k, v) = true
      · have hc2 : isNoEnd = true ∨ bytesCompare k endID ≤ 0 := by
          simpa [listCond] using hc
        simp [listLoop, hc2, ih, List.takeWhile_cons, hc, listRow]
      · have hc2 : ¬ (isNoEnd = true ∨ bytesCompare k endID ≤ 0) := by
          simpa [listCond] using hc
        simp [listLoop, hc2, List.takeWhile_cons, hc]

theorem listCond_downward (endID : Bytes) (isNoEnd : Bool) (x y : Bytes × Bytes)
    (hxy : bytesCompare x.1 y.1 < 0) (hy : listCond endID isNoEnd y = true) :
    listCond endID isNoEnd x = true := by
  cases isNoEnd with
  | true => simp [listCond]
  | false =>
    simp only [listCond, Bool.false_or, decide_eq_true_eq] at hy ⊢
    exact le_of_lt (bytesCompare_lt_of_lt_of_le hxy hy)

theorem listScan_eq_filter (db : Bucket) (lo hi : Bytes)
    (hs : db.Pairwise (fun x y => bytesCompare x.1 y.1 < 0)) :
    (db.Seek lo).takeWhile (listCond hi (decide (hi.length = 0))) =
      db.filter (fun x => inListRange lo hi x.1) := by
  have h1 : db.Seek lo = db.filter (fun x => !belowKey lo x) :=
    dropWhile_eq_filter_of_sorted (belowKey lo) db hs (belowKey_downward lo)
  rw [h1, takeWhile_eq_filter_of_sorted _ _ (hs.sublist (List.filter_sublist _))
    (listCond_downward hi _), List.filter_filter]
  congr 1
  funext x
  rw [not_belowKey]
  simp [inListRange, listCond, Bool.and_comm]

theorem sendReport_replicate_nil (n : Nat) : sendReport (List.replicate n []) = [] := by
  induction n with
  | zero => rfl
  | succ m ih =>
    simp only [sendReport] at ih
    simp [sendReport, List.replicate_succ, List.filter_cons, rowEmitted, ih]

theorem sendReport_append (a b : List (List Bytes)) :
    sendReport (a ++ b) = sendReport a ++ sendReport b := by
  simp [sendReport]

theorem sendReport_listRows (l : List (Bytes × Bytes)) (hne : ∀ x ∈ l, x.1 ≠ []) :
    sendReport (l.map listRow) = l.map listRow := by
  unfold sendReport
  apply List.filter_eq_self.mpr
  intro r hr
  obtain ⟨x, hx, hxr⟩ := List.mem_map.mp hr
  have h := hne x hx
  rw [← hxr]
  simp only [listRow, rowEmitted, decide_eq_true_eq]
  exact List.length_pos.mpr h

/-- The response of `apiLinkList` on a well-formed bucket. -/
theorem apiLinkList_run (db : Bucket) (start endID : Bytes) (hwf : db.WF) :
    apiLinkList db start endID =
      ⟨db, none, ((db.filter (fun x =>
        inListRange (if start = [] then db.First else start) endID x.1)).take 30).map listRow⟩ := by
  have hne : ∀ x ∈ (db.filter (fun x =>
      inListRange (if start = [] then db.First else start) endID x.1)).take 30, x.1 ≠ [] :=
    fun x hx => hwf.2 x (List.mem_of_mem_filter (List.mem_of_mem_take hx))
  have hstart : (if start.length = 0 then db.First else start) =
      (if start = [] then db.First else start) := by
    simp only [List.length_eq_zero]
  simp only [apiLinkList, hstart, listLoop_eq, sendReport_append, sendReport_replicate_nil,
    List.nil_append, listScan_eq_filter db _ endID hwf.1]
  rw [sendReport_listRows _ hne]

/-- C4: on a well-formed bucket the records `apiLinkList` sends are the pairs
`(key, url)` of the first 30 stored pairs, in bucket order, among those whose
key is at or after `start` (the first key when `start` is empty) and at or
before `end` (no upper bound when `end` is empty); their number is the
smaller of 30 and the number of such pairs, their keys are strictly
ascending, no error is returned and the bucket is unchanged. -/
theorem apiLinkList_rows (db : Bucket) (start endID : Bytes) (hwf : db.WF) :
    (apiLinkList db start endID).rows =
      ((db.filter (fun x =>
        inListRange (if start = [] then db.First else start) endID x.1)).take 30).map listRow ∧
    (apiLinkList db start endID).rows.length =
      min 30 (db.filter (fun x =>
        inListRange (if start = [] then db.First else start) endID x.1)).length ∧
    (apiLinkList db start endID).rows.length ≤ 30 ∧
    (apiLinkList db start endID).rows.Pairwise
      (fun r s => bytesCompare (r.headD []) (s.headD []) < 0) ∧
    (apiLinkList db start endID).err = none ∧
    (apiLinkList db start endID).db = db := by
  rw [apiLinkList_run db start endID hwf]
  refine ⟨rfl, ?_, ?_, ?_, rfl, rfl⟩
  · simp only [List.length_map, List.length_take]
  · simp only [List.length_map, List.length_take]
    exact Nat.min_le_left _ _
  · simp only
    rw [List.pairwise_map]
    exact hwf.1.sublist ((List.take_sublist _ _).trans (List.filter_sublist _))

theorem apiLinkList_rows_witness :
    Bucket.WF [(ascii "2401aaa00000", ascii "http://a"), (ascii "2401bbb00000", ascii "http://b"),
      (ascii "2402ccc00000", ascii "http://c")] ∧
    (apiLinkList [(ascii "2401aaa00000", ascii "http://a"), (ascii "2401bbb00000", ascii "http://b"),
      (ascii "2402ccc00000", ascii "http://c")] (ascii "2401aaa00000") (ascii "2401zzz00000")).rows =
      [[ascii "2401aaa00000", ascii "http://a"], [ascii "2401bbb00000", ascii "http://b"]] := by
  have h := apiLinkList_rows [(ascii "2401aaa00000", ascii "http://a"),
    (ascii "2401bbb00000", ascii "http://b"), (ascii "2402ccc00000", ascii "http://c")]
    (ascii "2401aaa00000") (ascii "2401zzz00000") (by decide)
  refine ⟨by decide, ?_⟩
  rw [h.1]
  decide

/-! ## apiAddLink -/

theorem addLoop_eq (links : List Bytes) (byteHash : Bytes) (b : Bucket)
    (report : List (List Bytes)) :
    addLoop links byteHash b report =
      ((addPairs links byteHash).foldl (fun b p => b.putIgnoringError p.2 p.1) b,
       report ++ (addPairs links byteHash).map addRow) := by
  induction links generalizing byteHash b report with
  | nil => simp [addLoop, addPairs]
  | cons link links ih =>
    by_cases hl : link.length = 0
    · simp [addLoop, addPairs, hl, ih]
    · simp [addLoop, addPairs, hl, ih, nextKey, addRow]

theorem goCopy_length (dst src : Bytes) : (goCopy dst src).length = dst.length := by
  simp only [goCopy, List.length_append, List.length_take, List.length_drop]
  omega

theorem nextKey_length (byteHash link : Bytes) (h : byteHash.length = 12) :
    (nextKey byteHash link).length = 12 := by
  simp only [nextKey, List.length_append, List.length_take, goCopy_length, List.length_drop, h]
  rfl

theorem nextKey_take (byteHash link : Bytes) (h : byteHash.length = 12) :
    (nextKey byteHash link).take 4 = byteHash.take 4 := by
  have h4 : (byteHash.take 4).length = 4 := by
    rw [List.length_take, h]; rfl
  simp only [nextKey]
  rw [List.take_append_of_le_length (by omega), List.take_take]
  rfl

theorem nextKey_drop (byteHash link : Bytes) (h : byteHash.length = 12) :
    (nextKey byteHash link).drop 4 = goCopy (byteHash.drop 4) (makeBaseHash link) := by
  have h4 : (byteHash.take 4).length = 4 := by
    rw [List.length_take, h]; rfl
  simp only [nextKey]
  rw [List.drop_append_of_le_length (by omega), List.drop_of_length_le (by omega)]
  rfl

theorem goCopy_of_long (dst src : Bytes) (h : dst.length ≤ src.length) :
    goCopy dst src = src.take dst.length := by
  simp [goCopy, List.drop_of_length_le h]

theorem freshKey_length (now : Time) : (freshKey now).length = 12 := by
  simp [freshKey, goCopy_length]

theorem freshKey_take (now : Time) : (freshKey now).take 4 = timeFormat0601 now := by
  simp [freshKey, goCopy, timeFormat0601, twoDigits]

theorem addPairs_urls (links : List Bytes) (byteHash : Bytes) :
    (addPairs links byteHash).map Prod.fst = links.filter (fun l => decide (l ≠ [])) := by
  induction links generalizing byteHash with
  | nil => rfl
  | cons link links ih =>
    by_cases hl : link.length = 0
    · have hl2 : link = [] := List.length_eq_zero.mp hl
      simp [addPairs, hl2, ih]
    · have hl2 : link ≠ [] := fun h => hl (List.length_eq_zero.mpr h)
      simp [addPairs, hl, hl2, ih]

/-- Every key of the loop is the 12-byte buffer holding the time prefix and,
for a hash text of more than 8 bytes, its first 8 bytes. -/
theorem addPairs_keys (links : List Bytes) (byteHash : Bytes) (h : byteHash.length = 12)
    (p : Bytes × Bytes) (hp : p ∈ addPairs links byteHash) :
    p.1 ≠ [] ∧ p.2.length = 12 ∧ p.2.take 4 = byteHash.take 4 ∧
      (8 < (makeBaseHash p.1).length → p.2.drop 4 = (makeBaseHash p.1).take 8) := by
  induction links generalizing byteHash with
  | nil => simp [addPairs] at hp
  | cons link links ih =>
    by_cases hl : link.length = 0
    · simp only [addPairs, hl, if_true] at hp
      exact ih byteHash h hp
    · simp only [addPairs, hl, if_false, List.mem_cons] at hp
      rcases hp with hp | hp
      · subst hp
        refine ⟨fun h0 => hl (List.length_eq_zero.mpr h0), nextKey_length _ _ h,
          nextKey_take _ _ h, ?_⟩
        intro hlong
        have hd : (byteHash.drop 4).length = 8 := by
          rw [List.length_drop, h]
        simp only at hlong ⊢
        rw [nextKey_drop _ _ h, goCopy_of_long _ _ (by omega), hd]
      · have h2 := ih (nextKey byteHash link) (nextKey_length _ _ h) hp
        rw [nextKey_take _ _ h] at h2
        exact h2

theorem stringsSplit_ne_nil (sep : Nat) (s : Bytes) : stringsSplit sep s ≠ [] := by
  induction s with
  | nil => simp [stringsSplit]
  | cons c cs ih =>
    simp only [stringsSplit]
    split_ifs
    · simp
    · cases hsp : stringsSplit sep cs <;> simp

theorem putIgnoringError_eq_insert (b : Bucket) (key value : Bytes) (h : key.length = 12) :
    b.putIgnoringError key value = b.insert key value := by
  simp [Bucket.putIgnoringError, Bucket.Put, h]

theorem foldl_put_eq_insert (pairs : List (Bytes × Bytes)) (b : Bucket)
    (h : ∀ p ∈ pairs, p.2.length = 12) :
    pairs.foldl (fun b p => b.putIgnoringError p.2 p.1) b =
      pairs.foldl (fun b p => b.insert p.2 p.1) b := by
  induction pairs generalizing b with
  | nil => rfl
  | cons p ps ih =>
    simp only [List.foldl_cons]
    rw [putIgnoringError_eq_insert b p.2 p.1 (h p (List.mem_cons_self _ _))]
    exact ih _ (fun q hq => h q (List.mem_cons_of_mem _ hq))

theorem sendReport_addRows (l : List (Bytes × Bytes)) (hne : ∀ x ∈ l, x.1 ≠ []) :
    sendReport (l.map addRow) = l.map addRow := by
  unfold sendReport
  apply List.filter_eq_self.mpr
  intro r hr
  obtain ⟨x, hx, hxr⟩ := List.mem_map.mp hr
  have h := hne x hx
  rw [← hxr]
  simp only [addRow, rowEmitted, decide_eq_true_eq]
  exact List.length_pos.mpr h

/-- The outcome of `apiAddLink`: every pair of the loop is put into the bucket
and sent as a record, and no error is returned. -/
theorem apiAddLink_run (now : Time) (db : Bucket) (link : Bytes) :
    apiAddLink now db link =
      ⟨(addPairs (stringsSplit newline link) (freshKey now)).foldl
          (fun b p => b.insert p.2 p.1) db,
        none, (addPairs (stringsSplit newline link) (freshKey now)).map addRow⟩ := by
  have hlen : ¬ (stringsSplit newline link).length = 0 := fun h =>
    stringsSplit_ne_nil newline link (List.length_eq_zero.mp h)
  have hkeys := addPairs_keys (stringsSplit newline link) (freshKey now) (freshKey_length now)
  have hfresh : goCopy (List.replicate 12 0) (timeFormat0601 now) = freshKey now := rfl
  simp only [apiAddLink, hlen, if_false, addLoop_eq, sendReport_append,
    sendReport_replicate_nil, List.nil_append, hfresh]
  rw [sendReport_addRows _ (fun p hp => (hkeys p hp).1),
    foldl_put_eq_insert _ _ (fun p hp => (hkeys p hp).2.1)]

/-- C8: `apiAddLink` returns no error and sends one record `(url, key)` per
non-empty line of its input, in input order and none for an empty line; every
key has 12 bytes, and the bucket afterwards is the bucket before with exactly
these pairs put into it, in order, each url under the key sent with it. -/
theorem apiAddLink_rows (now : Time) (db : Bucket) (link : Bytes) :
    (apiAddLink now db link).err = none ∧
    ∃ pairs : List (Bytes × Bytes),
      (apiAddLink now db link).rows = pairs.map addRow ∧
      pairs.map Prod.fst = (stringsSplit newline link).filter (fun l => decide (l ≠ [])) ∧
      (∀ p ∈ pairs, p.2.length = 12 ∧ ∀ b : Bucket, b.Put p.2 p.1 = .ok (b.insert p.2 p.1)) ∧
      (apiAddLink now db link).db = pairs.foldl (fun b p => b.insert p.2 p.1) db := by
  rw [apiAddLink_run]
  refine ⟨rfl, addPairs (stringsSplit newline link) (freshKey now), rfl,
    addPairs_urls _ _, ?_, rfl⟩
  intro p hp
  have h := (addPairs_keys _ _ (freshKey_length now) p hp).2.1
  refine ⟨h, fun b => ?_⟩
  simp [Bucket.Put, h]

/-- C3: whatever the batch, a record `(u, key)` of `apiAddLink` for a url `u`
whose base-36 hash text is longer than 8 bytes has a key of 12 bytes, made of
the 4 bytes of the `YYMM` stamp followed by the first 8 bytes of the hash
text; the handler returns no error, and the bucket is written with the keys of
the records. -/
theorem apiAddLink_key_of_long_hash (now : Time) (db : Bucket) (link u key : Bytes)
    (hrow : [u, key] ∈ (apiAddLink now db link).rows)
    (hlong : 8 < (makeBaseHash u).length) :
    key.length = 12 ∧ key.take 4 = timeFormat0601 now ∧ (timeFormat0601 now).length = 4 ∧
    key.drop 4 = (makeBaseHash u).take 8 ∧
    key = timeFormat0601 now ++ (makeBaseHash u).take 8 ∧
    (apiAddLink now db link).err = none ∧
    (apiAddLink now db link).db =
      ((apiAddLink now db link).rows.foldl (fun b r => b.insert (r.getD 1 []) (r.headD [])) db) := by
  rw [apiAddLink_run] at hrow ⊢
  obtain ⟨p, hp, hpr⟩ := List.mem_map.mp hrow
  have hk := addPairs_keys _ _ (freshKey_length now) p hp
  simp only [addRow, List.cons.injEq, and_true] at hpr
  obtain ⟨hu, hkey⟩ := hpr
  subst hu
  subst hkey
  rw [freshKey_take] at hk
  have hd := hk.2.2.2 hlong
  refine ⟨hk.2.1, hk.2.2.1, by simp [timeFormat0601, twoDigits], hd, ?_, rfl, ?_⟩
  · rw [← hk.2.2.1, ← hd, List.take_append_drop]
  · simp only [List.foldl_map, addRow, List.getD_cons_succ, List.getD_cons_zero,
      List.headD_cons]

theorem apiAddLink_key_of_long_hash_witness :
    [ascii "http://a.io/1", ascii "240125xzp6sw"] ∈
      (apiAddLink ⟨2024, 1⟩ [] (ascii "http://a.io/1")).rows ∧
    8 < (makeBaseHash (ascii "http://a.io/1")).length ∧
    ascii "240125xzp6sw" = timeFormat0601 ⟨2024, 1⟩ ++ (makeBaseHash (ascii "http://a.io/1")).take 8 :=
  ⟨by decide, by decide,
    (apiAddLink_key_of_long_hash ⟨2024, 1⟩ [] (ascii "http://a.io/1") (ascii "http://a.io/1")
      (ascii "240125xzp6sw") (by decide) (by decide)).2.2.2.2.1⟩

/-- C7, as the code behaves: an empty `link` value is not rejected. The guard
on `len(links) == 0` never fires, because `strings.Split` of the empty string
is one empty piece; the handler returns nil and sends no record. Nothing is
written to the bucket. -/
theorem apiAddLink_empty_input (now : Time) (db : Bucket) :
    apiAddLink now db [] = ⟨db, none, []⟩ := by
  simp [apiAddLink, stringsSplit, addLoop, sendReport, rowEmitted]

/-- C2, as the code behaves: the url `http://a.io/467626915` has the 6-byte
hash text `vxvo3z`, so its key keeps what the buffer held in bytes 10 and 11.
Alone in a batch it is stored under `2401vxvo3z` followed by two zero bytes;
after the line `http://a.io/1` of the same batch it is stored under
`2401vxvo3zsw`; adding the second batch to the bucket left by the first, in
the same month, leaves two records for the url. -/
theorem apiAddLink_key_depends_on_earlier_lines :
    (apiAddLink ⟨2024, 1⟩ [] (ascii "http://a.io/467626915")).rows =
      [[ascii "http://a.io/467626915", ascii "2401vxvo3z" ++ [0, 0]]] ∧
    (apiAddLink ⟨2024, 1⟩ [] (ascii "http://a.io/1\nhttp://a.io/467626915")).rows =
      [[ascii "http://a.io/1", ascii "240125xzp6sw"],
       [ascii "http://a.io/467626915", ascii "2401vxvo3zsw"]] ∧
    (apiAddLink ⟨2024, 1⟩ (apiAddLink ⟨2024, 1⟩ [] (ascii "http://a.io/467626915")).db
        (ascii "http://a.io/1\nhttp://a.io/467626915")).db =
      [(ascii "240125xzp6sw", ascii "http://a.io/1"),
       (ascii "2401vxvo3z" ++ [0, 0], ascii "http://a.io/467626915"),
       (ascii "2401vxvo3zsw", ascii "http://a.io/467626915")] := by
  decide

/-! ## apiRemoveHash -/

theorem removeLoop_eq (hashes : List Bytes) (b : Bucket) (report : List (List Bytes)) :
    removeLoop hashes b report =
      (b.filter (fun x => decide (x.1 ∉ hashes.filter (fun l => decide (l ≠ [])))),
       report ++ (hashes.filter (fun l => decide (l ≠ []))).map removeRow) := by
  induction hashes generalizing b report with
  | nil => simp [removeLoop]
  | cons hash hashes ih =>
    by_cases hl : hash.length = 0
    · have hl2 : hash = [] := List.length_eq_zero.mp hl
      simp [removeLoop, hl2, ih]
    · have hl2 : hash ≠ [] := fun h => hl (List.length_eq_zero.mpr h)
      simp only [removeLoop, hl, if_false, ih, Bucket.Delete, List.filter_filter,
        List.filter_cons, hl2, ne_eq, not_false_eq_true, decide_True, if_true,
        List.map_cons, List.append_assoc, List.singleton_append, removeRow]
      refine Prod.ext ?_ rfl
      simp only
      congr 1
      funext y
      by_cases hy : y.1 = hash
      · simp [hy]
      · simp [hy]

theorem sendReport_removeRows (l : List Bytes) (hne : ∀ x ∈ l, x ≠ []) :
    sendReport (l.map removeRow) = l.map removeRow := by
  unfold sendReport
  apply List.filter_eq_self.mpr
  intro r hr
  obtain ⟨x, hx, hxr⟩ := List.mem_map.mp hr
  have h := hne x hx
  rw [← hxr]
  simp only [removeRow, rowEmitted, decide_eq_true_eq]
  exact List.length_pos.mpr h

/-- The outcome of `apiRemoveHash`. -/
theorem apiRemoveHash_run (db : Bucket) (hash : Bytes) :
    apiRemoveHash db hash =
      ⟨db.filter (fun x => decide (x.1 ∉ nonEmptyLines hash)), none,
        (nonEmptyLines hash).map removeRow⟩ := by
  have hlen : ¬ (stringsSplit newline hash).length = 0 := fun h =>
    stringsSplit_ne_nil newline hash (List.length_eq_zero.mp h)
  have hne : ∀ x ∈ nonEmptyLines hash, x ≠ [] := by
    intro x hx
    have h := (List.mem_filter.mp hx).2
    simpa using h
  simp only [apiRemoveHash, hlen, if_false, removeLoop_eq, sendReport_append,
    sendReport_replicate_nil, List.nil_append]
  rw [show (stringsSplit newline hash).filter (fun l => decide (l ≠ [])) = nonEmptyLines hash
    from rfl, sendReport_removeRows _ hne]

/-- C9: `apiRemoveHash` returns no error for every input; the bucket
afterwards holds exactly the pairs whose key is not a non-empty line of the
input, so a lookup of a listed key finds nothing, whether or not it was
stored, and a lookup of any other key finds what it found before. -/
theorem apiRemoveHash_frame (db : Bucket) (hash : Bytes) :
    (apiRemoveHash db hash).err = none ∧
    (apiRemoveHash db hash).db = db.filter (fun x => decide (x.1 ∉ nonEmptyLines hash)) ∧
    (∀ k, (apiRemoveHash db hash).db.Get k =
      if k ∈ stringsSplit newline hash ∧ k ≠ [] then none else db.Get k) ∧
    (apiRemoveHash db hash).rows = (nonEmptyLines hash).map removeRow := by
  rw [apiRemoveHash_run]
  refine ⟨rfl, rfl, ?_, rfl⟩
  intro k
  have h := Get_filter db (fun k => decide (k ∉ nonEmptyLines hash)) k
  simp only at h ⊢
  rw [h]
  by_cases hk : k ∈ nonEmptyLines hash
  · have hk2 : k ∈ stringsSplit newline hash ∧ k ≠ [] := by
      simpa [nonEmptyLines, List.mem_filter] using hk
    simp [hk, hk2]
  · have hk2 : ¬ (k ∈ stringsSplit newline hash ∧ k ≠ []) := by
      simpa [nonEmptyLines, List.mem_filter] using hk
    rw [if_neg hk2]
    simp [hk]

/-! ## Round trip through the bucket -/

theorem stringsSplit_single (s : Bytes) (h : newline ∉ s) : stringsSplit newline s = [s] := by
  induction s with
  | nil => rfl
  | cons c cs ih =>
    have hc : ¬ c = newline := fun hc => h (by simp [hc])
    have hcs : newline ∉ cs := fun hm => h (List.mem_cons_of_mem _ hm)
    simp [stringsSplit, hc, ih hcs]

theorem Get_insert (b : Bucket) (k v : Bytes) : (b.insert k v).Get k = some v := by
  induction b with
  | nil => simp [Bucket.insert, Bucket.Get]
  | cons x xs ih =>
    obtain ⟨k1, v1⟩ := x
    simp only [Bucket.insert]
    split_ifs with h1 h2
    · simp [Bucket.Get]
    · simp [Bucket.Get]
    · have hne : ¬ k1 = k := by
        intro hk
        subst hk
        exact h2 (bytesCompare_self k1)
      simp [Bucket.Get, hne, ih]

theorem Get_Delete_self (b : Bucket) (k : Bytes) : (b.Delete k).Get k = none := by
  have h := Get_filter b (fun k1 => decide (k1 ≠ k)) k
  simp only [Bucket.Delete]
  rw [h]
  simp

theorem digitByte_ne_newline (d : Nat) : digitByte d ≠ newline := by
  simp only [digitByte, newline]
  split_ifs <;> omega

theorem formatBits_no_newline (room u base : Nat) (acc : Bytes)
    (h : ∀ c ∈ acc, c ≠ newline) : ∀ c ∈ formatBits room u base acc, c ≠ newline := by
  induction room generalizing u acc with
  | zero =>
    intro c hc
    simp only [formatBits, List.mem_cons] at hc
    rcases hc with hc | hc
    · rw [hc]; exact digitByte_ne_newline u
    · exact h c hc
  | succ m ih =>
    intro c hc
    simp only [formatBits] at hc
    split_ifs at hc
    · refine ih (u / base) (digitByte (u % base) :: acc) ?_ c hc
      intro d hd
      rcases List.mem_cons.mp hd with hd | hd
      · rw [hd]; exact digitByte_ne_newline _
      · exact h d hd
    · rcases List.mem_cons.mp hc with hc | hc
      · rw [hc]; exact digitByte_ne_newline u
      · exact h c hc

theorem makeBaseHash_no_newline (link : Bytes) : ∀ c ∈ makeBaseHash link, c ≠ newline :=
  formatBits_no_newline 64 (Sum64 link) 36 [] (fun c hc => by simp at hc)

theorem freshKey_no_newline (now : Time) : ∀ c ∈ freshKey now, c ≠ newline := by
  intro c hc
  simp only [freshKey, goCopy, timeFormat0601, twoDigits, List.mem_append] at hc
  rcases hc with hc | hc
  · have hc2 := List.mem_of_mem_take hc
    simp only [List.cons_append, List.nil_append, List.mem_cons, List.mem_singleton,
      List.not_mem_nil, or_false] at hc2
    simp only [newline]
    omega
  · have hc2 := List.mem_of_mem_drop hc
    have hc3 : c = 0 := (List.mem_replicate.mp hc2).2
    simp [hc3, newline]

theorem nextKey_no_newline (byteHash link : Bytes) (h : ∀ c ∈ byteHash, c ≠ newline) :
    ∀ c ∈ nextKey byteHash link, c ≠ newline := by
  intro c hc
  simp only [nextKey, goCopy, List.mem_append] at hc
  rcases hc with hc | hc | hc
  · exact h c (List.mem_of_mem_take hc)
  · exact makeBaseHash_no_newline link c (List.mem_of_mem_take hc)
  · exact h c (List.mem_of_mem_drop (List.mem_of_mem_drop hc))

/-- C5: for a non-empty url `u` without a line feed and any bucket,
`apiAddLink` on the single line `u` sends one record `(u, key)`;
`findRedirect` on that key in the bucket it leaves gives `u`; and after
`apiRemoveHash` on that key, `findRedirect` on it gives the empty string. -/
theorem add_lookup_remove_round_trip (now : Time) (db : Bucket) (u : Bytes)
    (hne : u ≠ []) (hnl : newline ∉ u) :
    ∃ key : Bytes,
      (apiAddLink now db u).err = none ∧
      (apiAddLink now db u).rows = [[u, key]] ∧
      findRedirect (apiAddLink now db u).db key = u ∧
      (apiRemoveHash (apiAddLink now db u).db key).err = none ∧
      findRedirect (apiRemoveHash (apiAddLink now db u).db key).db key = [] := by
  have hlen : ¬ u.length = 0 := fun h => hne (List.length_eq_zero.mp h)
  have hk12 : (nextKey (freshKey now) u).length = 12 := nextKey_length _ _ (freshKey_length now)
  have hk0 : ¬ (nextKey (freshKey now) u).length = 0 := by omega
  have hknl : newline ∉ nextKey (freshKey now) u := fun hm =>
    nextKey_no_newline _ u (freshKey_no_newline now) newline hm rfl
  have hkne : nextKey (freshKey now) u ≠ [] := fun h => hk0 (List.length_eq_zero.mpr h)
  refine ⟨nextKey (freshKey now) u, ?_⟩
  rw [apiAddLink_run, apiRemoveHash_run]
  simp only [stringsSplit_single u hnl, addPairs, hlen, if_false, List.foldl_cons,
    List.foldl_nil, List.map_cons, List.map_nil, addRow, nonEmptyLines,
    stringsSplit_single _ hknl, true_and]
  refine ⟨?_, ?_⟩
  · simp [findRedirect, hk0, Get_insert]
  · have hf : List.filter (fun l => decide (l ≠ [])) [nextKey (freshKey now) u] =
        [nextKey (freshKey now) u] := by simp [hkne]
    rw [hf]
    have hd := Get_Delete_self (Bucket.insert db (nextKey (freshKey now) u) u)
      (nextKey (freshKey now) u)
    simp only [Bucket.Delete] at hd
    simp only [findRedirect, hk0, if_false, List.mem_singleton]
    rw [hd]

theorem add_lookup_remove_round_trip_witness :
    ∃ key : Bytes,
      (apiAddLink ⟨2024, 1⟩ [] (ascii "https://example.com/a")).err = none ∧
      (apiAddLink ⟨2024, 1⟩ [] (ascii "https://example.com/a")).rows =
        [[ascii "https://example.com/a", key]] ∧
      findRedirect (apiAddLink ⟨2024, 1⟩ [] (ascii "https://example.com/a")).db key =
        ascii "https://example.com/a" ∧
      (apiRemoveHash (apiAddLink ⟨2024, 1⟩ [] (ascii "https://example.com/a")).db key).err
        = none ∧
      findRedirect (apiRemoveHash (apiAddLink ⟨2024, 1⟩ [] (ascii "https://example.com/a")).db
        key).db key = [] :=
  add_lookup_remove_round_trip ⟨2024, 1⟩ [] (ascii "https://example.com/a")
    (by decide) (by decide)

/-! ## redirectServerHandler -/

/-- C10: `redirectServerHandler` never panics. When the method is not `GET`
or the path has fewer than 13 bytes it answers 404 without calling
`findRedirect`. Otherwise the slice `Path[1:13]` is in bounds and has 12
bytes, `findRedirect` is called once, on exactly these bytes, and the answer
is 302 to the url stored under that key when there is a non-empty one, 404
when the key is absent (or its value is empty). -/
theorem redirectServerHandler_spec (db : Bucket) (method : String) (path : Bytes) :
    goSlice path 1 13 = (if 13 ≤ path.length then some ((path.take 13).drop 1) else none) ∧
    ((path.take 13).drop 1).length = min 13 path.length - 1 ∧
    redirectServerHandler db method path =
      if method = "GET" ∧ 13 ≤ path.length then
        match db.Get ((path.take 13).drop 1) with
        | some url =>
          if url = [] then some (⟨404, none⟩, [(path.take 13).drop 1])
          else some (⟨302, some url⟩, [(path.take 13).drop 1])
        | none => some (⟨404, none⟩, [(path.take 13).drop 1])
      else some (⟨404, none⟩, []) := by
  refine ⟨?_, ?_, ?_⟩
  · simp [goSlice]
  · simp only [List.length_drop, List.length_take]
  · by_cases hc : method = "GET" ∧ 13 ≤ path.length
    · have hlen : ((path.take 13).drop 1).length = 12 := by
        simp only [List.length_drop, List.length_take]
        omega
      have hk0 : ¬ ((path.take 13).drop 1).length = 0 := by omega
      have hge : path.length ≥ 13 := hc.2
      simp only [redirectServerHandler, hc.1, hge, hc.2, and_self, if_true, goSlice,
        Nat.one_le_ofNat, findRedirect, hk0, if_false]
      cases hget : db.Get ((path.take 13).drop 1) with
      | none => simp
      | some url =>
        by_cases hu : url = []
        · simp [hu]
        · have hpos : 0 < url.length := List.length_pos.mpr hu
          simp [hu, hpos]
    · have hc2 : ¬ (method = "GET" ∧ path.length ≥ 13) := hc
      simp only [redirectServerHandler, hc, hc2, if_false]

/-! ## The bucket invariant is kept -/

theorem mem_insert (b : Bucket) (k v : Bytes) (y : Bytes × Bytes) (hy : y ∈ b.insert k v) :
    y = (k, v) ∨ y ∈ b := by
  induction b with
  | nil => simpa [Bucket.insert] using hy
  | cons x xs ih =>
    obtain ⟨k1, v1⟩ := x
    simp only [Bucket.insert] at hy
    split_ifs at hy with h1 h2
    · rcases List.mem_cons.mp hy with hy | hy
      · exact Or.inl hy
      · exact Or.inr hy
    · rcases List.mem_cons.mp hy with hy | hy
      · exact Or.inl hy
      · exact Or.inr (List.mem_cons_of_mem _ hy)
    · rcases List.mem_cons.mp hy with hy | hy
      · exact Or.inr (by rw [hy]; exact List.mem_cons_self _ _)
      · rcases ih hy with h | h
        · exact Or.inl h
        · exact Or.inr (List.mem_cons_of_mem _ h)

theorem insert_WF (b : Bucket) (k v : Bytes) (hk : k ≠ []) (h : b.WF) : (b.insert k v).WF := by
  refine ⟨?_, ?_⟩
  · have hs := h.1
    clear h
    induction b with
    | nil => simp [Bucket.insert]
    | cons x xs ih =>
      obtain ⟨k1, v1⟩ := x
      rw [List.pairwise_cons] at hs
      simp only [Bucket.insert]
      split_ifs with h1 h2
      · refine List.pairwise_cons.mpr ⟨?_, List.pairwise_cons.mpr hs⟩
        intro y hy
        rcases List.mem_cons.mp hy with hy | hy
        · rw [hy]; exact h1
        · exact bytesCompare_lt_trans h1 (hs.1 y hy)
      · have hkk : k = k1 := bytesCompare_eq_zero h2
        refine List.pairwise_cons.mpr ⟨?_, hs.2⟩
        intro y hy
        rw [hkk]
        exact hs.1 y hy
      · refine List.pairwise_cons.mpr ⟨?_, ih hs.2⟩
        intro y hy
        rcases mem_insert xs k v y hy with hy | hy
        · rw [hy]
          have hsw := bytesCompare_swap k k1
          simp only
          omega
        · exact hs.1 y hy
  · intro y hy
    rcases mem_insert b k v y hy with hy | hy
    · rw [hy]; exact hk
    · exact h.2 y hy

theorem filter_WF (b : Bucket) (q : Bytes × Bytes → Bool) (h : b.WF) : Bucket.WF (b.filter q) :=
  ⟨h.1.sublist (List.filter_sublist _), fun y hy => h.2 y (List.mem_of_mem_filter hy)⟩

theorem foldl_insert_WF (pairs : List (Bytes × Bytes)) (b : Bucket)
    (hp : ∀ p ∈ pairs, p.2.length = 12) (h : b.WF) :
    Bucket.WF (pairs.foldl (fun b p => b.insert p.2 p.1) b) := by
  induction pairs generalizing b with
  | nil => exact h
  | cons p ps ih =>
    simp only [List.foldl_cons]
    apply ih _ (fun q hq => hp q (List.mem_cons_of_mem _ hq))
    apply insert_WF _ _ _ _ h
    intro h0
    have := hp p (List.mem_cons_self _ _)
    rw [h0] at this
    simp at this

/-- Every handler that writes leaves a well-formed bucket well-formed. -/
theorem handlers_keep_WF (now : Time) (db : Bucket) (a c : Bytes) (h : db.WF) :
    (apiAddLink now db a).db.WF ∧ (apiRemoveHash db a).db.WF ∧
      (apiCleanupHash db a c).db.WF ∧ (apiLinkList db a c).db.WF := by
  refine ⟨?_, ?_, ?_, h⟩
  · rw [apiAddLink_run]
    exact foldl_insert_WF _ _
      (fun p hp => (addPairs_keys _ _ (freshKey_length now) p hp).2.1) h
  · rw [apiRemoveHash_run]
    exact filter_WF _ _ h
  · by_cases hg : a.length = 0 ∧ c.length = 0
    · simpa [apiCleanupHash, hg] using h
    · rw [apiCleanupHash_run db a c h.1 hg]
      exact filter_WF _ _ h

/-! ## The cursor under deletion

The cleanup loop deletes the key its cursor stands on and then calls `Next`.
Whether the cursor keeps walking the pairs it was positioned on, or looks the
next key up in the bucket as it is after the deletion, the loop does the
same. -/

theorem bytesCompare_ne_of_lt {a b : Bytes} (h : bytesCompare a b < 0) : a ≠ b := by
  intro hab
  rw [hab, bytesCompare_self] at h
  exact lt_irrefl _ h

theorem Delete_middle (pre rest : Bucket) (k v : Bytes)
    (hs : (pre ++ (k, v) :: rest).Pairwise (fun x y => bytesCompare x.1 y.1 < 0)) :
    Bucket.Delete (pre ++ (k, v) :: rest) k = pre ++ rest := by
  rw [List.pairwise_append] at hs
  obtain ⟨_, hrest, hcross⟩ := hs
  rw [List.pairwise_cons] at hrest
  have hpre : pre.filter (fun x => decide (x.1 ≠ k)) = pre := by
    apply List.filter_eq_self.mpr
    intro x hx
    have := bytesCompare_ne_of_lt (hcross x hx (k, v) (List.mem_cons_self _ _))
    simpa using this
  have hr : rest.filter (fun x => decide (x.1 ≠ k)) = rest := by
    apply List.filter_eq_self.mpr
    intro x hx
    have hne : ¬ x.1 = k := fun h => bytesCompare_ne_of_lt (hrest.1 x hx) h.symm
    simpa using hne
  simp only [Bucket.Delete, List.filter_append, List.filter_cons, hpre, hr]
  simp

theorem nextAfter_middle (pre rest : Bucket) (k v : Bytes)
    (hs : (pre ++ (k, v) :: rest).Pairwise (fun x y => bytesCompare x.1 y.1 < 0)) :
    Bucket.nextAfter (pre ++ rest) k = rest.head? := by
  rw [List.pairwise_append] at hs
  obtain ⟨_, hrest, hcross⟩ := hs
  rw [List.pairwise_cons] at hrest
  have hpre : ∀ x ∈ pre, decide (bytesCompare x.1 k ≤ 0) = true := by
    intro x hx
    have := hcross x hx (k, v) (List.mem_cons_self _ _)
    simpa using le_of_lt this
  simp only [Bucket.nextAfter]
  rw [List.dropWhile_append_of_pos hpre]
  cases rest with
  | nil => rfl
  | cons y ys =>
    have hy : bytesCompare k y.1 < 0 := hrest.1 y (List.mem_cons_self _ _)
    have hsw := bytesCompare_swap k y.1
    have hnot : ¬ bytesCompare y.1 k ≤ 0 := by omega
    simp [List.dropWhile_cons, hnot]

theorem cleanupLoopLive_eq (endID : Bytes) (cur pre : Bucket) (n steps : Nat)
    (hs : (pre ++ cur).Pairwise (fun x y => bytesCompare x.1 y.1 < 0))
    (hsteps : cur.length < steps) :
    cleanupLoopLive endID steps cur.head? (pre ++ cur) n = cleanupLoop endID cur (pre ++ cur) n := by
  induction cur generalizing n steps with
  | nil =>
    cases steps with
    | zero => simp at hsteps
    | succ m => simp [cleanupLoopLive, cleanupLoop]
  | cons x rest ih =>
    obtain ⟨k, v⟩ := x
    cases steps with
    | zero => simp at hsteps
    | succ m =>
      have hrest : (pre ++ rest).Pairwise (fun x y => bytesCompare x.1 y.1 < 0) :=
        hs.sublist (List.Sublist.append_left (List.sublist_cons_self _ _) _)
      have hm : rest.length < m := by
        simp only [List.length_cons] at hsteps
        omega
      simp only [List.head?_cons, cleanupLoopLive, cleanupLoop, Delete_middle pre rest k v hs,
        nextAfter_middle pre rest k v hs]
      split_ifs
      · exact ih (n + 1) m hrest hm
      · rfl

/-- On a bucket in key order the cleanup loop gives the same bucket and the
same count with a cursor that re-reads the bucket after every deletion. -/
theorem cleanupLoop_cursor_independent (db : Bucket) (start endID : Bytes)
    (hs : db.Pairwise (fun x y => bytesCompare x.1 y.1 < 0)) :
    cleanupLoopLive endID (db.length + 1) (db.Seek start).head? db 0 =
      cleanupLoop endID (db.Seek start) db 0 := by
  have hsplit : db.takeWhile (fun x => decide (bytesCompare x.1 start < 0)) ++ db.Seek start = db :=
    List.takeWhile_append_dropWhile _ db
  have hlen : (db.Seek start).length < db.length + 1 := by
    have hsub : List.Sublist (db.Seek start) db := List.dropWhile_sublist _
    have := hsub.length_le
    omega
  have h := cleanupLoopLive_eq endID (db.Seek start)
    (db.takeWhile (fun x => decide (bytesCompare x.1 start < 0))) 0 (db.length + 1)
    (by rw [hsplit]; exact hs) hlen
  rw [hsplit] at h
  exact h

end Gurl
